import Mathlib

/-!
Verification of the commit-matching core of `git-diff-branch.py`.

The shallow embedding below follows the Python source:
* `Commit` models the commit record as the comparison logic uses it
  (hash string, one-line summary, optional Change-Id extracted from the
  message by the external regex).
* `Result` models the `Result` class hierarchy (`ResultMatchFull`,
  `ResultMatchPartial`, `ResultFail`) as one record tagged by `ResultKind`;
  the Python float confidences and weights become rationals.
* `Result.merge` mirrors `Result.merge`: group the results by
  `confidence * weight` into an insertion-ordered dictionary, take the
  group with the maximal key, return its first element.  The Python
  `ValueError` raised by `max` on an empty sequence becomes `none`.
* `compareHash`, `compareChangeId`, `compareSubject` mirror the three
  comparator strategies; `editDistance` models `editdistance.eval`.
* `runStrategies` / `compareCommits` mirror `BranchDiff.compare_commits`
  with its short-circuit on confidence 1.0; `rowCompute`, `diffGo` and
  `diffRun` mirror `BranchDiff._compare`.
* The `...E` family re-expresses the same loops in an exception monad
  (`Except String`) over an arbitrary strategy list, to reason about the
  propagation of unexpected comparator errors.
-/

structure Commit where
  hexsha : String
  summary : String
  changeId : Option String
deriving DecidableEq, Repr

inductive ResultKind where
  | full
  | part
  | fail
deriving DecidableEq, Repr

structure Result where
  kind : ResultKind
  commitSrc : Option Commit
  commitDest : Option Commit
  weight : ℚ
  confidence : ℚ
deriving DecidableEq, Repr

def Result.CONFIDENCE_MIN : ℚ := 0.7

def Result.CONFIDENCE_MAX : ℚ := 1.0

def Result.WEIGHT_MAX : ℚ := 1.0

/-- Python `ResultMatchFull(compare_class, commit)`: source and destination
are both `commit`, confidence is `CONFIDENCE_MAX`, weight is the strategy
class weight. -/
def Result.mkFull (w : ℚ) (c : Commit) : Result :=
  ⟨ResultKind.full, some c, some c, w, Result.CONFIDENCE_MAX⟩

/-- Python `ResultMatchPartial(compare_class, commit1, commit2, confidence)`. -/
def Result.mkPart (w : ℚ) (c1 c2 : Commit) (conf : ℚ) : Result :=
  ⟨ResultKind.part, some c1, some c2, w, conf⟩

/-- Python `ResultFail(commit1, commit2)`: weight 0 (never overwritten)
and confidence 0. -/
def Result.mkFail (c1 c2 : Option Commit) : Result :=
  ⟨ResultKind.fail, c1, c2, 0, 0⟩

/-- Python class attribute `POSITIVE`: `True` on the match classes,
`False` on `Result`/`ResultFail`. -/
def Result.positive (r : Result) : Bool :=
  match r.kind with
  | ResultKind.fail => false
  | _ => true

/-- The score `confidence * weight` computed inside `Result.merge`. -/
def Result.score (r : Result) : ℚ := r.confidence * r.weight

/-- One step of filling the insertion-ordered score dictionary
(`res_dict[value].append(result)`): append to the first group with this
score, or add a new group at the end. -/
def addResult (gs : List (ℚ × List Result)) (r : Result) : List (ℚ × List Result) :=
  match gs with
  | [] => [(r.score, [r])]
  | (k, v) :: rest =>
    if k = r.score then (k, v ++ [r]) :: rest
    else (k, v) :: addResult rest r

/-- First group stored under key `k` (Python `res_dict[value]`). -/
def findGroup (gs : List (ℚ × List Result)) (k : ℚ) : List Result :=
  match gs with
  | [] => []
  | (k0, v) :: rest => if k0 = k then v else findGroup rest k

/-- Python `max` over a list of rationals; `none` models the `ValueError`
on an empty sequence. -/
def qmax : List ℚ → Option ℚ
  | [] => none
  | x :: xs => some (xs.foldl max x)

/-- Python `Result.merge`: build the score dictionary, pick the group with
the maximal key, return its first element. -/
def Result.merge (results : List Result) : Option Result :=
  let groups := results.foldl addResult []
  match qmax (groups.map Prod.fst) with
  | none => none
  | some m => (findGroup groups m).head?

def CommitCompareHash.WEIGHT : ℚ := Result.WEIGHT_MAX

def CommitCompareChangeId.WEIGHT : ℚ := Result.WEIGHT_MAX

def CommitCompareSubject.WEIGHT : ℚ := 0.4

def CommitCompareSubject.THRESHOLD : ℚ := 0.7

/-- Levenshtein edit distance with explicit fuel, structurally recursive
so that it reduces inside the kernel.  Every recursive call shrinks the
combined length of the two lists by at least one while consuming exactly
one unit of fuel, so starting from fuel `a.length + b.length` the zero
fuel case (both lists non-empty) is never reached. -/
def editDistanceFuel : Nat → List Char → List Char → Nat
  | _, [], ys => ys.length
  | _, x :: xs, [] => (x :: xs).length
  | 0, _ :: _, _ :: _ => 0
  | fuel + 1, x :: xs, y :: ys =>
    if x = y then editDistanceFuel fuel xs ys
    else 1 + min (editDistanceFuel fuel xs (y :: ys))
      (min (editDistanceFuel fuel (x :: xs) ys) (editDistanceFuel fuel xs ys))

/-- Levenshtein edit distance on character lists; models
`editdistance.eval` applied to the two summary strings. -/
def editDistance (a b : List Char) : Nat :=
  editDistanceFuel (a.length + b.length) a b

/-- Python `CommitCompareHash.__call__`. -/
def compareHash (c1 c2 : Commit) : Result :=
  if c1.hexsha = c2.hexsha then Result.mkFull CommitCompareHash.WEIGHT c1
  else Result.mkFail (some c1) (some c2)

/-- Python truthiness of the optional `change_id` string: `None` and the
empty string are falsy. -/
def changeIdTruthy : Option String → Bool
  | none => false
  | some s => !s.isEmpty

/-- Python `CommitCompareChangeId.__call__`:
`commit1.change_id and commit2.change_id and commit1.change_id == commit2.change_id`. -/
def compareChangeId (c1 c2 : Commit) : Result :=
  if changeIdTruthy c1.changeId && changeIdTruthy c2.changeId
      && decide (c1.changeId = c2.changeId) then
    Result.mkPart CommitCompareChangeId.WEIGHT c1 c2 Result.CONFIDENCE_MAX
  else Result.mkFail (some c1) (some c2)

/-- Python `CommitCompareSubject.__call__`: on zero raw edit distance
return a match with maximal confidence immediately, otherwise normalise
the distance by the longer summary and compare against the threshold. -/
def compareSubject (c1 c2 : Commit) : Result :=
  let distance := editDistance c1.summary.toList c2.summary.toList
  if distance = 0 then
    Result.mkPart CommitCompareSubject.WEIGHT c1 c2 Result.CONFIDENCE_MAX
  else
    let sim : ℚ :=
      Result.CONFIDENCE_MAX
        - (distance : ℚ) / (max c1.summary.length c2.summary.length : ℚ)
    if CommitCompareSubject.THRESHOLD ≤ sim then
      Result.mkPart CommitCompareSubject.WEIGHT c1 c2 sim
    else Result.mkFail (some c1) (some c2)

/-- The fixed strategy list `self.compare_obj`, in registration order. -/
def strategies : List (Commit → Commit → Result) :=
  [compareHash, compareChangeId, compareSubject]

/-- The strategy loop of `BranchDiff.compare_commits`: apply the
strategies in order, stopping as soon as one reports confidence
`CONFIDENCE_MAX`. -/
def runStrategies : List (Commit → Commit → Result) → Commit → Commit → List Result
  | [], _, _ => []
  | f :: fs, c1, c2 =>
    let r := f c1 c2
    if r.confidence = Result.CONFIDENCE_MAX then [r]
    else r :: runStrategies fs c1 c2

/-- Python `BranchDiff.compare_commits`: run the strategies with the
short-circuit and merge their results. -/
def compareCommits (c1 c2 : Commit) : Option Result :=
  Result.merge (runStrategies strategies c1 c2)

/-- The inner loop of `BranchDiff._compare` for one `commit1`: the merged
result per `commit2` in order, plus the `commit2`s appended to `checked`
(those whose merged pair result is `POSITIVE`). -/
def rowCompute (c1 : Commit) : List Commit → Option (List Result × List Commit)
  | [] => some ([], [])
  | c2 :: rest =>
    match compareCommits c1 c2, rowCompute c1 rest with
    | some r, some (rs, ch) =>
      some (r :: rs, (if r.positive then [c2] else []) ++ ch)
    | _, _ => none

/-- The outer loop of `BranchDiff._compare`: for each `commit1`, compute
the row, merge it into the best match for `commit1`, and extend the
accumulated results and `checked` list. -/
def diffGo (commits2 : List Commit) :
    List Commit → List Result → List Commit → Option (List Result × List Commit)
  | [], acc, checked => some (acc, checked)
  | c1 :: rest, acc, checked =>
    match rowCompute c1 commits2 with
    | none => none
    | some (row, ch) =>
      match Result.merge row with
      | none => none
      | some best => diffGo commits2 rest (acc ++ [best]) (checked ++ ch)

/-- Python `BranchDiff._compare`: the per-`commit1` best results followed
by a `ResultFail(None, commit)` for every `commits2` entry never appended
to `checked`. -/
def diffRun (commits1 commits2 : List Commit) : Option (List Result) :=
  match diffGo commits2 commits1 [] [] with
  | none => none
  | some (results, checked) =>
    some (results ++
      (commits2.filter (fun c => decide (c ∉ checked))).map
        (fun c => Result.mkFail none (some c)))

/-- A comparator strategy that may raise: the Python strategies are called
on data produced lazily by the external git library, so a call can raise
an exception, which `compare_commits` does not catch. -/
abbrev StratE := Commit → Commit → Except String Result

/-- The strategy loop of `BranchDiff.compare_commits` with exception
propagation: an exception raised by a strategy call aborts the loop. -/
def runStrategiesE (fs : List StratE) (c1 c2 : Commit) : Except String (List Result) :=
  match fs with
  | [] => Except.ok []
  | f :: fs' =>
    match f c1 c2 with
    | Except.error e => Except.error e
    | Except.ok r =>
      if r.confidence = Result.CONFIDENCE_MAX then Except.ok [r]
      else
        match runStrategiesE fs' c1 c2 with
        | Except.error e => Except.error e
        | Except.ok rs => Except.ok (r :: rs)

/-- `BranchDiff.compare_commits` with exception propagation; the
`ValueError` of `Result.merge` on an empty sequence is an error too. -/
def compareCommitsE (fs : List StratE) (c1 c2 : Commit) : Except String Result :=
  match runStrategiesE fs c1 c2 with
  | Except.error e => Except.error e
  | Except.ok rs =>
    match Result.merge rs with
    | none => Except.error "ValueError: max() arg is an empty sequence"
    | some r => Except.ok r

/-- Inner loop of `BranchDiff._compare` with exception propagation. -/
def rowComputeE (fs : List StratE) (c1 : Commit) :
    List Commit → Except String (List Result × List Commit)
  | [] => Except.ok ([], [])
  | c2 :: rest =>
    match compareCommitsE fs c1 c2 with
    | Except.error e => Except.error e
    | Except.ok r =>
      match rowComputeE fs c1 rest with
      | Except.error e => Except.error e
      | Except.ok (rs, ch) =>
        Except.ok (r :: rs, (if r.positive then [c2] else []) ++ ch)

/-- Outer loop of `BranchDiff._compare` with exception propagation. -/
def diffGoE (fs : List StratE) (commits2 : List Commit) :
    List Commit → List Result → List Commit → Except String (List Result × List Commit)
  | [], acc, checked => Except.ok (acc, checked)
  | c1 :: rest, acc, checked =>
    match rowComputeE fs c1 commits2 with
    | Except.error e => Except.error e
    | Except.ok (row, ch) =>
      match Result.merge row with
      | none => Except.error "ValueError: max() arg is an empty sequence"
      | some best => diffGoE fs commits2 rest (acc ++ [best]) (checked ++ ch)

/-- `BranchDiff._compare` with exception propagation: an uncaught
exception from any strategy call aborts the whole run before any report
is assembled. -/
def diffRunE (fs : List StratE) (commits1 commits2 : List Commit) :
    Except String (List Result) :=
  match diffGoE fs commits2 commits1 [] [] with
  | Except.error e => Except.error e
  | Except.ok (results, checked) =>
    Except.ok (results ++
      (commits2.filter (fun c => decide (c ∉ checked))).map
        (fun c => Result.mkFail none (some c)))

/-- Whether the diff recorded `c` as "claimed": some `commits1` entry has
a positive merged pair result against `c` (mirrors the growth of the
`checked` list in `_compare`). -/
def claimed (commits1 : List Commit) (c : Commit) : Bool :=
  commits1.any (fun c1 =>
    match compareCommits c1 c with
    | some r => r.positive
    | none => false)

/-- Whether the final result list records `c` in the Only-in-B bucket:
a `ResultFail` with absent source and destination `c` (the filter used by
`BranchDiff.compare` for the fourth section). -/
def onlyInB (results : List Result) (c : Commit) : Bool :=
  results.any (fun r =>
    decide (r.kind = ResultKind.fail ∧ r.commitSrc = none ∧ r.commitDest = some c))

/-- Whether commit `c` appears in one of the three rangeB-relevant report
buckets of `BranchDiff.compare`: Identical (a full match mentioning `c`),
Matched-with-changes (a part match with destination `c`), or Only-in-B
(an unclaimed fail with destination `c`). -/
def inBucketB (results : List Result) (c : Commit) : Bool :=
  results.any (fun r =>
    decide ((r.kind = ResultKind.full ∧ (r.commitSrc = some c ∨ r.commitDest = some c)) ∨
      (r.kind = ResultKind.part ∧ r.commitDest = some c) ∨
      (r.kind = ResultKind.fail ∧ r.commitSrc = none ∧ r.commitDest = some c)))

/-- The maximal score of a result sequence, following the spec wording
"the maximum score over the sequence". -/
def maxScore (l : List Result) : ℚ :=
  (qmax (l.map Result.score)).getD 0

/-- Modelled from the spec wording for the summary-similarity strategy:
`similarity = 1.0 - (editDistance / max(len(summaryA), len(summaryB)))`,
with similarity 1.0 whenever the raw edit distance is 0. -/
def specSimilarity (c1 c2 : Commit) : ℚ :=
  let d := editDistance c1.summary.toList c2.summary.toList
  if d = 0 then 1
  else 1 - (d : ℚ) / (max c1.summary.length c2.summary.length : ℚ)

/-- A result that one of the three registered strategies can produce on
some pair of commits. -/
def IsStrategyOutput (r : Result) : Prop :=
  ∃ c1 c2 : Commit,
    r = compareHash c1 c2 ∨ r = compareChangeId c1 c2 ∨ r = compareSubject c1 c2

/-! ### Properties of `qmax` and the score dictionary -/

theorem foldl_max_spec (xs : List ℚ) (a : ℚ) :
    (xs.foldl max a = a ∨ xs.foldl max a ∈ xs) ∧
      a ≤ xs.foldl max a ∧ ∀ x ∈ xs, x ≤ xs.foldl max a := by
  induction xs generalizing a with
  | nil => simp
  | cons y ys ih =>
    obtain ⟨hmem, hle, hall⟩ := ih (max a y)
    simp only [List.foldl_cons]
    refine ⟨?_, le_trans (le_max_left a y) hle, ?_⟩
    · rcases hmem with h | h
      · rcases max_choice a y with hm | hm
        · exact Or.inl (h.trans hm)
        · exact Or.inr (by simp [h.trans hm])
      · exact Or.inr (List.mem_cons_of_mem _ h)
    · intro x hx
      rcases List.mem_cons.mp hx with rfl | hx
      · exact le_trans (le_max_right a x) hle
      · exact hall x hx

theorem qmax_eq_none_iff (l : List ℚ) : qmax l = none ↔ l = [] := by
  cases l <;> simp [qmax]

theorem qmax_mem (l : List ℚ) (m : ℚ) (h : qmax l = some m) : m ∈ l := by
  cases l with
  | nil => simp [qmax] at h
  | cons x xs =>
    simp only [qmax, Option.some.injEq] at h
    obtain ⟨hmem, -, -⟩ := foldl_max_spec xs x
    rw [h] at hmem
    rcases hmem with h1 | h1
    · simp [h1]
    · exact List.mem_cons_of_mem _ h1

theorem qmax_le (l : List ℚ) (m : ℚ) (h : qmax l = some m) : ∀ x ∈ l, x ≤ m := by
  cases l with
  | nil => simp
  | cons x xs =>
    simp only [qmax, Option.some.injEq] at h
    obtain ⟨-, hle, hall⟩ := foldl_max_spec xs x
    rw [h] at hle hall
    intro y hy
    rcases List.mem_cons.mp hy with rfl | hy
    · exact hle
    · exact hall y hy

theorem qmax_congr (l1 l2 : List ℚ) (h : ∀ x, x ∈ l1 ↔ x ∈ l2) : qmax l1 = qmax l2 := by
  cases h1 : qmax l1 with
  | none =>
    rw [qmax_eq_none_iff] at h1
    subst h1
    symm
    rw [qmax_eq_none_iff, List.eq_nil_iff_forall_not_mem]
    intro x hx
    exact (List.not_mem_nil x) ((h x).mpr hx)
  | some m =>
    cases h2 : qmax l2 with
    | none =>
      rw [qmax_eq_none_iff] at h2
      subst h2
      exact absurd ((h m).mp (qmax_mem _ _ h1)) (List.not_mem_nil m)
    | some m2 =>
      have hle1 : m ≤ m2 := qmax_le l2 m2 h2 m ((h m).mp (qmax_mem _ _ h1))
      have hle2 : m2 ≤ m := qmax_le l1 m h1 m2 ((h m2).mpr (qmax_mem _ _ h2))
      rw [le_antisymm hle1 hle2]

theorem findGroup_addResult (gs : List (ℚ × List Result)) (r : Result) (k : ℚ) :
    findGroup (addResult gs r) k =
      if k = r.score then findGroup gs k ++ [r] else findGroup gs k := by
  induction gs with
  | nil =>
    by_cases hk : k = r.score
    · simp [addResult, findGroup, hk]
    · have hk2 : ¬(r.score = k) := fun h => hk h.symm
      simp [addResult, findGroup, hk, hk2]
  | cons g rest ih =>
    obtain ⟨k0, v⟩ := g
    by_cases h0 : k0 = r.score
    · by_cases hk0 : k0 = k
      · have hks : k = r.score := hk0.symm.trans h0
        simp only [addResult, if_pos h0, findGroup, if_pos hk0, if_pos hks]
      · have hks : ¬(k = r.score) := fun h => hk0 (h0.trans h.symm)
        simp only [addResult, if_pos h0, findGroup, if_neg hk0, if_neg hks]
    · by_cases hk0 : k0 = k
      · have hks : ¬(k = r.score) := fun h => h0 (hk0.trans h)
        simp only [addResult, if_neg h0, findGroup, if_pos hk0, if_neg hks]
      · simp only [addResult, if_neg h0, findGroup, if_neg hk0, ih]

theorem findGroup_foldl (l : List Result) (gs : List (ℚ × List Result)) (k : ℚ) :
    findGroup (l.foldl addResult gs) k =
      findGroup gs k ++ l.filter (fun r => decide (r.score = k)) := by
  induction l generalizing gs with
  | nil => simp
  | cons r rs ih =>
    simp only [List.foldl_cons]
    rw [ih, findGroup_addResult]
    by_cases hk : k = r.score
    · rw [if_pos hk]
      have hk2 : r.score = k := hk.symm
      simp [List.filter_cons, hk2]
    · rw [if_neg hk]
      have hk2 : ¬(r.score = k) := fun h => hk h.symm
      simp [List.filter_cons, hk2]

theorem mem_keys_addResult (gs : List (ℚ × List Result)) (r : Result) (k : ℚ) :
    k ∈ (addResult gs r).map Prod.fst ↔ k ∈ gs.map Prod.fst ∨ k = r.score := by
  induction gs with
  | nil => simp [addResult]
  | cons g rest ih =>
    obtain ⟨k0, v⟩ := g
    by_cases h0 : k0 = r.score
    · subst h0
      simp [addResult]
      tauto
    · simp only [addResult, if_neg h0, List.map_cons, List.mem_cons, ih]
      tauto

theorem mem_keys_foldl (l : List Result) (gs : List (ℚ × List Result)) (k : ℚ) :
    k ∈ (l.foldl addResult gs).map Prod.fst ↔
      k ∈ gs.map Prod.fst ∨ k ∈ l.map Result.score := by
  induction l generalizing gs with
  | nil => simp
  | cons r rs ih =>
    simp only [List.foldl_cons, ih, mem_keys_addResult, List.map_cons, List.mem_cons]
    tauto

theorem head?_filter_eq_find? {α : Type} (p : α → Bool) (l : List α) :
    (l.filter p).head? = l.find? p := by
  induction l with
  | nil => simp
  | cons x xs ih =>
    by_cases h : p x
    · simp [List.filter_cons, h, List.find?_cons, ih]
    · simp [List.filter_cons, h, List.find?_cons, ih]

/-! ### The characterization of `Result.merge` -/

theorem merge_char (l : List Result) (h : l ≠ []) :
    Result.merge l = l.find? (fun r => decide (r.score = maxScore l)) := by
  have hkeys : ∀ k, k ∈ (l.foldl addResult []).map Prod.fst ↔ k ∈ l.map Result.score := by
    intro k
    rw [mem_keys_foldl]
    simp
  have hq : qmax ((l.foldl addResult []).map Prod.fst) = qmax (l.map Result.score) :=
    qmax_congr _ _ hkeys
  cases hm : qmax (l.map Result.score) with
  | none =>
    rw [qmax_eq_none_iff, List.map_eq_nil_iff] at hm
    exact absurd hm h
  | some m =>
    have hmax : maxScore l = m := by simp [maxScore, hm]
    simp only [Result.merge, hq, hm, hmax]
    rw [findGroup_foldl]
    simp only [findGroup, List.nil_append]
    exact head?_filter_eq_find? _ l

theorem merge_eq_none_iff (l : List Result) : Result.merge l = none ↔ l = [] := by
  constructor
  · intro h
    by_contra hne
    rw [merge_char l hne] at h
    cases hm : qmax (l.map Result.score) with
    | none =>
      rw [qmax_eq_none_iff, List.map_eq_nil_iff] at hm
      exact hne hm
    | some m =>
      obtain ⟨r, hr, hscore⟩ := List.mem_map.mp (qmax_mem _ _ hm)
      have hsome : (l.find? (fun r => decide (r.score = maxScore l))).isSome :=
        List.find?_isSome.mpr ⟨r, hr, by simp [maxScore, hm, hscore]⟩
      rw [h] at hsome
      simp at hsome
  · rintro rfl
    rfl

theorem merge_mem (l : List Result) (r : Result) (h : Result.merge l = some r) : r ∈ l := by
  have hne : l ≠ [] := by
    rintro rfl
    simp [Result.merge, qmax] at h
  rw [merge_char l hne] at h
  exact List.mem_of_find?_eq_some h

theorem merge_isSome (l : List Result) (h : l ≠ []) : ∃ r, Result.merge l = some r := by
  cases hm : Result.merge l with
  | none => exact absurd ((merge_eq_none_iff l).mp hm) h
  | some r => exact ⟨r, rfl⟩

/-! ### Values of the numeric class attributes -/

theorem Result.CONFIDENCE_MAX_eq : Result.CONFIDENCE_MAX = 1 := by
  norm_num [Result.CONFIDENCE_MAX]

theorem Result.CONFIDENCE_MIN_eq : Result.CONFIDENCE_MIN = 7/10 := by
  norm_num [Result.CONFIDENCE_MIN]

theorem hashWeight_eq : CommitCompareHash.WEIGHT = 1 := by
  norm_num [CommitCompareHash.WEIGHT, Result.WEIGHT_MAX]

theorem changeIdWeight_eq : CommitCompareChangeId.WEIGHT = 1 := by
  norm_num [CommitCompareChangeId.WEIGHT, Result.WEIGHT_MAX]

theorem subjectWeight_eq : CommitCompareSubject.WEIGHT = 2/5 := by
  norm_num [CommitCompareSubject.WEIGHT]

theorem CommitCompareSubject.THRESHOLD_eq : CommitCompareSubject.THRESHOLD = 7/10 := by
  norm_num [CommitCompareSubject.THRESHOLD]

/-! ### Shape of the three strategy outputs -/

theorem score_mkFail (c1 c2 : Option Commit) : (Result.mkFail c1 c2).score = 0 := by
  simp [Result.score, Result.mkFail]

theorem score_mkFull_hash (c : Commit) :
    (Result.mkFull CommitCompareHash.WEIGHT c).score = 1 := by
  simp [Result.score, Result.mkFull, Result.CONFIDENCE_MAX_eq, hashWeight_eq]

theorem score_mkPart_changeId (c1 c2 : Commit) :
    (Result.mkPart CommitCompareChangeId.WEIGHT c1 c2 Result.CONFIDENCE_MAX).score = 1 := by
  simp [Result.score, Result.mkPart, Result.CONFIDENCE_MAX_eq, changeIdWeight_eq]

theorem score_mkPart_subject (c1 c2 : Commit) (conf : ℚ) :
    (Result.mkPart CommitCompareSubject.WEIGHT c1 c2 conf).score = conf * (2/5) := by
  simp [Result.score, Result.mkPart, subjectWeight_eq]

theorem compareHash_cases (c1 c2 : Commit) :
    (c1.hexsha = c2.hexsha ∧ compareHash c1 c2 = Result.mkFull CommitCompareHash.WEIGHT c1) ∨
      (c1.hexsha ≠ c2.hexsha ∧ compareHash c1 c2 = Result.mkFail (some c1) (some c2)) := by
  by_cases h : c1.hexsha = c2.hexsha
  · exact Or.inl ⟨h, by simp [compareHash, h]⟩
  · exact Or.inr ⟨h, by simp [compareHash, h]⟩

theorem compareChangeId_cases (c1 c2 : Commit) :
    ((changeIdTruthy c1.changeId && changeIdTruthy c2.changeId
        && decide (c1.changeId = c2.changeId)) = true ∧
      compareChangeId c1 c2 =
        Result.mkPart CommitCompareChangeId.WEIGHT c1 c2 Result.CONFIDENCE_MAX) ∨
    ((changeIdTruthy c1.changeId && changeIdTruthy c2.changeId
        && decide (c1.changeId = c2.changeId)) = false ∧
      compareChangeId c1 c2 = Result.mkFail (some c1) (some c2)) := by
  by_cases h : (changeIdTruthy c1.changeId && changeIdTruthy c2.changeId
      && decide (c1.changeId = c2.changeId)) = true
  · exact Or.inl ⟨h, by simp [compareChangeId, h]⟩
  · refine Or.inr ⟨by simpa using h, ?_⟩
    simp only [compareChangeId]
    rw [if_neg h]

theorem compareSubject_cases (c1 c2 : Commit) :
    compareSubject c1 c2 = Result.mkFail (some c1) (some c2) ∨
      ∃ conf : ℚ, 7/10 ≤ conf ∧ conf ≤ 1 ∧
        compareSubject c1 c2 = Result.mkPart CommitCompareSubject.WEIGHT c1 c2 conf := by
  simp only [compareSubject]
  by_cases hd : editDistance c1.summary.toList c2.summary.toList = 0
  · rw [if_pos hd]
    exact Or.inr ⟨Result.CONFIDENCE_MAX,
      by rw [Result.CONFIDENCE_MAX_eq]; norm_num,
      by rw [Result.CONFIDENCE_MAX_eq], rfl⟩
  · rw [if_neg hd]
    by_cases hs : CommitCompareSubject.THRESHOLD ≤
        Result.CONFIDENCE_MAX
          - (editDistance c1.summary.toList c2.summary.toList : ℚ)
            / (max c1.summary.length c2.summary.length : ℚ)
    · rw [if_pos hs]
      refine Or.inr ⟨_, ?_, ?_, rfl⟩
      · rw [CommitCompareSubject.THRESHOLD_eq] at hs
        exact hs
      · rw [Result.CONFIDENCE_MAX_eq]
        have hnum : (0:ℚ) ≤ (editDistance c1.summary.toList c2.summary.toList : ℚ) :=
          Nat.cast_nonneg _
        have hden : (0:ℚ) ≤ max (c1.summary.length : ℚ) (c2.summary.length : ℚ) :=
          le_max_of_le_left (Nat.cast_nonneg _)
        have := div_nonneg hnum hden
        linarith
    · rw [if_neg hs]
      exact Or.inl rfl

theorem merge_singleton (r : Result) : Result.merge [r] = some r := by
  simp [Result.merge, addResult, findGroup, qmax]

theorem runStrategies_strategies (c1 c2 : Commit) :
    runStrategies strategies c1 c2 =
      if (compareHash c1 c2).confidence = Result.CONFIDENCE_MAX then [compareHash c1 c2]
      else compareHash c1 c2 ::
        (if (compareChangeId c1 c2).confidence = Result.CONFIDENCE_MAX
         then [compareChangeId c1 c2]
         else [compareChangeId c1 c2, compareSubject c1 c2]) := by
  simp only [strategies, runStrategies]
  by_cases hS : (compareSubject c1 c2).confidence = Result.CONFIDENCE_MAX <;> simp [hS]

theorem compareHash_conf_cases (c1 c2 : Commit) :
    ((compareHash c1 c2).confidence = Result.CONFIDENCE_MAX ∧
      compareHash c1 c2 = Result.mkFull CommitCompareHash.WEIGHT c1) ∨
    ((compareHash c1 c2).confidence ≠ Result.CONFIDENCE_MAX ∧
      compareHash c1 c2 = Result.mkFail (some c1) (some c2)) := by
  rcases compareHash_cases c1 c2 with ⟨h, heq⟩ | ⟨h, heq⟩
  · exact Or.inl ⟨by rw [heq]; rfl, heq⟩
  · refine Or.inr ⟨?_, heq⟩
    rw [heq]
    simp [Result.mkFail, Result.CONFIDENCE_MAX_eq]

theorem compareChangeId_conf_cases (c1 c2 : Commit) :
    ((compareChangeId c1 c2).confidence = Result.CONFIDENCE_MAX ∧
      compareChangeId c1 c2 =
        Result.mkPart CommitCompareChangeId.WEIGHT c1 c2 Result.CONFIDENCE_MAX) ∨
    ((compareChangeId c1 c2).confidence ≠ Result.CONFIDENCE_MAX ∧
      compareChangeId c1 c2 = Result.mkFail (some c1) (some c2)) := by
  rcases compareChangeId_cases c1 c2 with ⟨h, heq⟩ | ⟨h, heq⟩
  · exact Or.inl ⟨by rw [heq]; rfl, heq⟩
  · refine Or.inr ⟨?_, heq⟩
    rw [heq]
    simp [Result.mkFail, Result.CONFIDENCE_MAX_eq]

theorem compareChangeId_score_le (c1 c2 : Commit) : (compareChangeId c1 c2).score ≤ 1 := by
  rcases compareChangeId_cases c1 c2 with ⟨-, heq⟩ | ⟨-, heq⟩
  · rw [heq, score_mkPart_changeId]
  · rw [heq, score_mkFail]
    norm_num

theorem compareSubject_score_le (c1 c2 : Commit) : (compareSubject c1 c2).score ≤ 2/5 := by
  rcases compareSubject_cases c1 c2 with heq | ⟨conf, h1, h2, heq⟩
  · rw [heq, score_mkFail]
    norm_num
  · rw [heq, score_mkPart_subject]
    exact mul_le_of_le_one_left (by norm_num) h2

/-- C5: for every commit pair, evaluating the strategies with the
short-circuit on confidence 1.0 and merging gives the same merged result
as evaluating all three strategies and merging: the short-circuit never
changes the outcome. -/
theorem C5_shortcircuit_equals_full_evaluation (c1 c2 : Commit) :
    compareCommits c1 c2 = Result.merge (strategies.map (fun f => f c1 c2)) := by
  have hmap : strategies.map (fun f => f c1 c2) =
      [compareHash c1 c2, compareChangeId c1 c2, compareSubject c1 c2] := by
    simp [strategies]
  simp only [compareCommits]
  rw [runStrategies_strategies, hmap]
  have hsS := compareSubject_score_le c1 c2
  rcases compareHash_conf_cases c1 c2 with ⟨hH, heqH⟩ | ⟨hH, heqH⟩
  · rw [if_pos hH, merge_singleton]
    have hne : ([compareHash c1 c2, compareChangeId c1 c2, compareSubject c1 c2] :
        List Result) ≠ [] := by simp
    rw [merge_char _ hne]
    have hsH : (compareHash c1 c2).score = 1 := by rw [heqH, score_mkFull_hash]
    have hsCI := compareChangeId_score_le c1 c2
    have hmax : maxScore [compareHash c1 c2, compareChangeId c1 c2, compareSubject c1 c2]
        = 1 := by
      simp only [maxScore, qmax, List.map_cons, List.map_nil, List.foldl_cons,
        List.foldl_nil, Option.getD_some]
      rw [hsH, max_eq_left hsCI, max_eq_left (le_trans hsS (by norm_num))]
    rw [hmax]
    simp [List.find?, hsH]
  · rw [if_neg hH]
    rcases compareChangeId_conf_cases c1 c2 with ⟨hCI, heqCI⟩ | ⟨hCI, heqCI⟩
    · rw [if_pos hCI]
      have hsH : (compareHash c1 c2).score = 0 := by rw [heqH, score_mkFail]
      have hsCI : (compareChangeId c1 c2).score = 1 := by rw [heqCI, score_mkPart_changeId]
      have hne2 : ([compareHash c1 c2, compareChangeId c1 c2] : List Result) ≠ [] := by
        simp
      have hne3 : ([compareHash c1 c2, compareChangeId c1 c2, compareSubject c1 c2] :
          List Result) ≠ [] := by simp
      rw [merge_char _ hne2, merge_char _ hne3]
      have hmax2 : maxScore [compareHash c1 c2, compareChangeId c1 c2] = 1 := by
        simp only [maxScore, qmax, List.map_cons, List.map_nil, List.foldl_cons,
          List.foldl_nil, Option.getD_some]
        rw [hsH, hsCI, max_eq_right (by norm_num : (0:ℚ) ≤ 1)]
      have hmax3 : maxScore [compareHash c1 c2, compareChangeId c1 c2, compareSubject c1 c2]
          = 1 := by
        simp only [maxScore, qmax, List.map_cons, List.map_nil, List.foldl_cons,
          List.foldl_nil, Option.getD_some]
        rw [hsH, hsCI, max_eq_right (by norm_num : (0:ℚ) ≤ 1),
          max_eq_left (le_trans hsS (by norm_num))]
      rw [hmax2, hmax3]
      simp [List.find?, hsH, hsCI]
    · rw [if_neg hCI]

/-- C3: for every non-empty sequence of comparison results, `Result.merge`
returns the first element (in input order) whose score
`confidence * weight` equals the maximum score over the sequence; in
particular several results tying at the maximal score are resolved in
favour of the earliest-evaluated one. -/
theorem C3_merge_first_of_max_score (l : List Result) (h : l ≠ []) :
    Result.merge l = l.find? (fun r => decide (r.score = maxScore l)) :=
  merge_char l h

/-- C3 witness: a concrete sequence with a tie at the maximal score (the
change-id style match and the full match both score 1); merge returns the
earlier of the two. -/
theorem C3_witness :
    ([Result.mkFail none none,
      Result.mkPart 1 ⟨"a", "x", none⟩ ⟨"b", "y", none⟩ 1,
      Result.mkFull 1 ⟨"a", "x", none⟩] : List Result) ≠ [] ∧
    Result.merge
        [Result.mkFail none none,
          Result.mkPart 1 ⟨"a", "x", none⟩ ⟨"b", "y", none⟩ 1,
          Result.mkFull 1 ⟨"a", "x", none⟩] =
      List.find?
        (fun r => decide (r.score =
          maxScore [Result.mkFail none none,
            Result.mkPart 1 ⟨"a", "x", none⟩ ⟨"b", "y", none⟩ 1,
            Result.mkFull 1 ⟨"a", "x", none⟩]))
        [Result.mkFail none none,
          Result.mkPart 1 ⟨"a", "x", none⟩ ⟨"b", "y", none⟩ 1,
          Result.mkFull 1 ⟨"a", "x", none⟩] :=
  ⟨by decide, C3_merge_first_of_max_score _ (by decide)⟩

/-- C9: `Result.merge` fails (the Python `ValueError` from `max`, modelled
as `none`) exactly when the input sequence is empty; every non-empty
sequence yields a result. -/
theorem C9_merge_error_iff_empty (l : List Result) :
    Result.merge l = none ↔ l = [] :=
  merge_eq_none_iff l

/-- C6: the summary-similarity strategy behaves as the spec formula
prescribes: with `specSimilarity` defined as
`1 - editDistance / max(len1, len2)` (and 1 whenever the raw edit
distance is 0), the strategy returns a part match of confidence equal to
the similarity when it is at least 0.7 and a fail otherwise; its weight
is 0.4 = 2/5. -/
theorem C6_subject_strategy_spec (c1 c2 : Commit) :
    compareSubject c1 c2 =
      (if 7/10 ≤ specSimilarity c1 c2
       then Result.mkPart CommitCompareSubject.WEIGHT c1 c2 (specSimilarity c1 c2)
       else Result.mkFail (some c1) (some c2)) ∧
    CommitCompareSubject.WEIGHT = 2/5 := by
  refine ⟨?_, subjectWeight_eq⟩
  by_cases hd : editDistance c1.summary.toList c2.summary.toList = 0
  · simp only [compareSubject, specSimilarity, if_pos hd, Result.CONFIDENCE_MAX_eq]
    rw [if_pos (by norm_num : (7:ℚ)/10 ≤ 1)]
  · simp only [compareSubject, specSimilarity, if_neg hd, Result.CONFIDENCE_MAX_eq,
      CommitCompareSubject.THRESHOLD_eq]

/-- C7: the hash strategy returns a full match exactly when the two hashes
are equal; the full match has confidence 1 and records the same commit as
source and destination; on unequal hashes the strategy returns a fail; the
strategy weight is 1. -/
theorem C7_hash_identity (c1 c2 : Commit) :
    ((compareHash c1 c2).kind = ResultKind.full ↔ c1.hexsha = c2.hexsha) ∧
    (c1.hexsha = c2.hexsha →
      compareHash c1 c2 = Result.mkFull CommitCompareHash.WEIGHT c1 ∧
      (compareHash c1 c2).confidence = 1 ∧
      (compareHash c1 c2).commitSrc = some c1 ∧
      (compareHash c1 c2).commitDest = some c1) ∧
    (¬ c1.hexsha = c2.hexsha →
      compareHash c1 c2 = Result.mkFail (some c1) (some c2)) ∧
    CommitCompareHash.WEIGHT = 1 := by
  by_cases h : c1.hexsha = c2.hexsha
  · refine ⟨?_, fun _ => ?_, fun hn => absurd h hn, hashWeight_eq⟩
    · simp [compareHash, h, Result.mkFull]
    · refine ⟨by simp [compareHash, h], ?_, ?_, ?_⟩ <;>
        simp [compareHash, h, Result.mkFull, Result.CONFIDENCE_MAX_eq]
  · refine ⟨?_, fun hp => absurd hp h, fun _ => ?_, hashWeight_eq⟩
    · simp [compareHash, h, Result.mkFail]
    · simp [compareHash, h]

/-- C7 witness: on commits with equal hashes the strategy yields the full
match with the same commit as source and destination; on distinct hashes
it yields the fail result. -/
theorem C7_witness :
    compareHash ⟨"h", "s", none⟩ ⟨"h", "t", none⟩ =
      Result.mkFull CommitCompareHash.WEIGHT ⟨"h", "s", none⟩ ∧
    compareHash ⟨"h", "s", none⟩ ⟨"g", "t", none⟩ =
      Result.mkFail (some ⟨"h", "s", none⟩) (some ⟨"g", "t", none⟩) :=
  ⟨((C7_hash_identity ⟨"h", "s", none⟩ ⟨"h", "t", none⟩).2.1 rfl).1,
    (C7_hash_identity ⟨"h", "s", none⟩ ⟨"g", "t", none⟩).2.2.1 (by decide)⟩


theorem isEmpty_false_iff (s : String) : s.isEmpty = false ↔ s ≠ "" := by
  rw [Bool.eq_false_iff]
  exact not_congr (String.isEmpty_iff s)

theorem changeId_guard_iff (c1 c2 : Commit) :
    (changeIdTruthy c1.changeId && changeIdTruthy c2.changeId
        && decide (c1.changeId = c2.changeId)) = true ↔
      (∃ s, c1.changeId = some s ∧ s ≠ "" ∧ c2.changeId = some s) := by
  cases hc1 : c1.changeId with
  | none => simp [changeIdTruthy]
  | some s1 =>
    cases hc2 : c2.changeId with
    | none => simp [changeIdTruthy]
    | some s2 =>
      simp only [changeIdTruthy, Bool.and_eq_true, Bool.not_eq_true', decide_eq_true_eq,
        Option.some.injEq, isEmpty_false_iff]
      constructor
      · rintro ⟨⟨h1, h2⟩, rfl⟩
        exact ⟨s1, rfl, h1, rfl⟩
      · rintro ⟨s, rfl, hs, rfl⟩
        exact ⟨⟨hs, hs⟩, rfl⟩

/-- C8: the change-id strategy returns a part match of confidence 1
exactly when both commits carry a non-empty change id and the two ids are
equal; otherwise it returns a fail; the strategy weight is 1. -/
theorem C8_changeId_identity (c1 c2 : Commit) :
    (((compareChangeId c1 c2).kind = ResultKind.part ∧
        (compareChangeId c1 c2).confidence = 1) ↔
      (∃ s, c1.changeId = some s ∧ s ≠ "" ∧ c2.changeId = some s)) ∧
    ((¬ ∃ s, c1.changeId = some s ∧ s ≠ "" ∧ c2.changeId = some s) →
      compareChangeId c1 c2 = Result.mkFail (some c1) (some c2)) ∧
    CommitCompareChangeId.WEIGHT = 1 := by
  by_cases hg : (changeIdTruthy c1.changeId && changeIdTruthy c2.changeId
      && decide (c1.changeId = c2.changeId)) = true
  · refine ⟨?_, fun hn => absurd ((changeId_guard_iff c1 c2).mp hg) hn,
      changeIdWeight_eq⟩
    rw [← changeId_guard_iff c1 c2]
    simp only [compareChangeId, if_pos hg]
    simp [Result.mkPart, Result.CONFIDENCE_MAX_eq, hg]
  · refine ⟨?_, fun _ => ?_, changeIdWeight_eq⟩
    · rw [← changeId_guard_iff c1 c2]
      simp only [compareChangeId, if_neg hg]
      simp only [Bool.not_eq_true] at hg
      simp [Result.mkFail, hg]
    · simp only [compareChangeId, if_neg hg]

/-- C8 witness: commits sharing the non-empty change id "i1" yield the
part match of confidence 1; commits without change ids yield the fail. -/
theorem C8_witness :
    ((compareChangeId ⟨"a", "s", some "i1"⟩ ⟨"b", "t", some "i1"⟩).kind = ResultKind.part ∧
      (compareChangeId ⟨"a", "s", some "i1"⟩ ⟨"b", "t", some "i1"⟩).confidence = 1) ∧
    compareChangeId ⟨"a", "s", none⟩ ⟨"b", "t", none⟩ =
      Result.mkFail (some ⟨"a", "s", none⟩) (some ⟨"b", "t", none⟩) :=
  ⟨(C8_changeId_identity ⟨"a", "s", some "i1"⟩ ⟨"b", "t", some "i1"⟩).1.mpr
      ⟨"i1", rfl, by decide, rfl⟩,
    (C8_changeId_identity ⟨"a", "s", none⟩ ⟨"b", "t", none⟩).2.1 (by simp)⟩

theorem maxScore_ge (l : List Result) (x : Result) (hx : x ∈ l) : x.score ≤ maxScore l := by
  cases hm : qmax (l.map Result.score) with
  | none =>
    rw [qmax_eq_none_iff, List.map_eq_nil_iff] at hm
    subst hm
    cases hx
  | some m =>
    have := qmax_le _ _ hm x.score (List.mem_map_of_mem _ hx)
    simpa [maxScore, hm] using this

theorem strategyOutput_score (r : Result) (h : IsStrategyOutput r) :
    (r.kind = ResultKind.fail ∧ r.score = 0) ∨
      (r.kind ≠ ResultKind.fail ∧ 7/25 ≤ r.score) := by
  obtain ⟨c1, c2, hc | hc | hc⟩ := h
  · rcases compareHash_cases c1 c2 with ⟨-, heq⟩ | ⟨-, heq⟩
    · refine Or.inr ⟨?_, ?_⟩
      · rw [hc, heq]
        simp [Result.mkFull]
      · rw [hc, heq, score_mkFull_hash]
        norm_num
    · refine Or.inl ⟨?_, ?_⟩
      · rw [hc, heq]
        rfl
      · rw [hc, heq, score_mkFail]
  · rcases compareChangeId_cases c1 c2 with ⟨-, heq⟩ | ⟨-, heq⟩
    · refine Or.inr ⟨?_, ?_⟩
      · rw [hc, heq]
        simp [Result.mkPart]
      · rw [hc, heq, score_mkPart_changeId]
        norm_num
    · refine Or.inl ⟨?_, ?_⟩
      · rw [hc, heq]
        rfl
      · rw [hc, heq, score_mkFail]
  · rcases compareSubject_cases c1 c2 with heq | ⟨conf, h1, h2, heq⟩
    · refine Or.inl ⟨?_, ?_⟩
      · rw [hc, heq]
        rfl
      · rw [hc, heq, score_mkFail]
    · refine Or.inr ⟨?_, ?_⟩
      · rw [hc, heq]
        simp [Result.mkPart]
      · rw [hc, heq, score_mkPart_subject]
        nlinarith [h1]

/-- C10: for a non-empty sequence of results produced by the three
registered strategies, the merged result is a fail exactly when every
element is a fail: every fail scores 0 while every match produced by a
strategy scores at least 7/25 > 0 and hence outranks every fail. -/
theorem C10_merge_fail_iff_all_fail (l : List Result) (r : Result)
    (hne : l ≠ []) (hall : ∀ x ∈ l, IsStrategyOutput x)
    (hm : Result.merge l = some r) :
    r.kind = ResultKind.fail ↔ ∀ x ∈ l, x.kind = ResultKind.fail := by
  rw [merge_char l hne] at hm
  have hrmem := List.mem_of_find?_eq_some hm
  have hrscore : r.score = maxScore l := by simpa using List.find?_some hm
  constructor
  · intro hfail x hx
    rcases strategyOutput_score r (hall r hrmem) with ⟨-, hs0⟩ | ⟨hnf, -⟩
    · by_contra hxf
      rcases strategyOutput_score x (hall x hx) with ⟨hxfail, -⟩ | ⟨-, hxge⟩
      · exact hxf hxfail
      · have hle : x.score ≤ maxScore l := maxScore_ge l x hx
        rw [← hrscore, hs0] at hle
        linarith
    · exact absurd hfail hnf
  · intro hallfail
    rcases strategyOutput_score r (hall r hrmem) with ⟨hf, -⟩ | ⟨hnf, -⟩
    · exact hf
    · exact absurd (hallfail r hrmem) hnf

/-- C10 witness: the singleton sequence produced by the hash strategy on
commits with distinct hashes; the merged result is that fail, and indeed
every element of the sequence is a fail. -/
theorem C10_witness :
    (Result.mkFail (some ⟨"a", "s", none⟩) (some ⟨"b", "t", none⟩)).kind = ResultKind.fail ↔
      ∀ x ∈ [compareHash ⟨"a", "s", none⟩ ⟨"b", "t", none⟩], x.kind = ResultKind.fail :=
  C10_merge_fail_iff_all_fail [compareHash ⟨"a", "s", none⟩ ⟨"b", "t", none⟩]
    (Result.mkFail (some ⟨"a", "s", none⟩) (some ⟨"b", "t", none⟩))
    (by decide)
    (fun x hx => ⟨⟨"a", "s", none⟩, ⟨"b", "t", none⟩,
      Or.inl (List.mem_singleton.mp hx)⟩)
    (by with_unfolding_all decide)

/-- C1 amended: for commit pairs with two empty summaries and differing
hashes and change-ids the merged pair result is NOT a fail: the summary
strategy hits the zero-edit-distance early return (which also avoids any
division by zero) and produces a part match of confidence 1, which wins
the merge with score 2/5 over the two zero-score fails. -/
theorem C1_amended_empty_summaries (c1 c2 : Commit)
    (hs1 : c1.summary = "") (hs2 : c2.summary = "")
    (hh : c1.hexsha ≠ c2.hexsha) (hcid : c1.changeId ≠ c2.changeId) :
    compareCommits c1 c2 =
      some (Result.mkPart CommitCompareSubject.WEIGHT c1 c2 Result.CONFIDENCE_MAX) := by
  have hH : compareHash c1 c2 = Result.mkFail (some c1) (some c2) := by
    simp [compareHash, hh]
  have hCI : compareChangeId c1 c2 = Result.mkFail (some c1) (some c2) := by
    have hg : (changeIdTruthy c1.changeId && changeIdTruthy c2.changeId
        && decide (c1.changeId = c2.changeId)) = false := by
      simp [hcid]
    simp [compareChangeId, hg]
  have hS : compareSubject c1 c2 =
      Result.mkPart CommitCompareSubject.WEIGHT c1 c2 Result.CONFIDENCE_MAX := by
    have hd : editDistance c1.summary.toList c2.summary.toList = 0 := by
      rw [hs1, hs2]
      rfl
    simp only [compareSubject]
    rw [if_pos hd]
  have hcf : ¬((compareHash c1 c2).confidence = Result.CONFIDENCE_MAX) := by
    rw [hH]
    simp [Result.mkFail, Result.CONFIDENCE_MAX_eq]
  have hccf : ¬((compareChangeId c1 c2).confidence = Result.CONFIDENCE_MAX) := by
    rw [hCI]
    simp [Result.mkFail, Result.CONFIDENCE_MAX_eq]
  simp only [compareCommits]
  rw [runStrategies_strategies, if_neg hcf, if_neg hccf, hH, hCI, hS]
  have hne : ([Result.mkFail (some c1) (some c2), Result.mkFail (some c1) (some c2),
      Result.mkPart CommitCompareSubject.WEIGHT c1 c2 Result.CONFIDENCE_MAX] :
      List Result) ≠ [] := by simp
  rw [merge_char _ hne]
  have hsp : (Result.mkPart CommitCompareSubject.WEIGHT c1 c2
      Result.CONFIDENCE_MAX).score = 2/5 := by
    rw [score_mkPart_subject, Result.CONFIDENCE_MAX_eq, one_mul]
  have hmax : maxScore [Result.mkFail (some c1) (some c2),
      Result.mkFail (some c1) (some c2),
      Result.mkPart CommitCompareSubject.WEIGHT c1 c2 Result.CONFIDENCE_MAX] = 2/5 := by
    simp only [maxScore, qmax, List.map_cons, List.map_nil, List.foldl_cons,
      List.foldl_nil, Option.getD_some, score_mkFail, hsp, max_self]
    exact max_eq_right (by norm_num)
  rw [hmax]
  have h025 : ((0:ℚ) = 2/5) = False := by norm_num
  simp [List.find?, score_mkFail, hsp, h025]

/-- C1 counterexample: a concrete pair with both summaries empty and
differing hashes and change-ids whose merged result is a part match, not
the fail the claim requires. -/
theorem C1_counterexample :
    (⟨"a", "", some "i1"⟩ : Commit).summary = "" ∧
    (⟨"b", "", some "i2"⟩ : Commit).summary = "" ∧
    (⟨"a", "", some "i1"⟩ : Commit).hexsha ≠ (⟨"b", "", some "i2"⟩ : Commit).hexsha ∧
    (⟨"a", "", some "i1"⟩ : Commit).changeId ≠ (⟨"b", "", some "i2"⟩ : Commit).changeId ∧
    (compareCommits ⟨"a", "", some "i1"⟩ ⟨"b", "", some "i2"⟩).map Result.kind =
      some ResultKind.part :=
  ⟨rfl, rfl, by decide, by decide, by with_unfolding_all decide⟩

/-- C1 witness: the amended statement applied to the concrete pair of the
counterexample. -/
theorem C1_witness :
    compareCommits ⟨"a", "", some "i1"⟩ ⟨"b", "", some "i2"⟩ =
      some (Result.mkPart CommitCompareSubject.WEIGHT ⟨"a", "", some "i1"⟩
        ⟨"b", "", some "i2"⟩ Result.CONFIDENCE_MAX) :=
  C1_amended_empty_summaries ⟨"a", "", some "i1"⟩ ⟨"b", "", some "i2"⟩
    rfl rfl (by decide) (by decide)

/-- C4 amended: an unexpected comparator error is not contained:
`compare_commits` and `_compare` install no handler, so an error raised
while comparing the first pair propagates and aborts the whole diff run;
no fail result is substituted for the pair and no report is produced. -/
theorem C4_amended_error_aborts_run (fs : List StratE) (c1 c2 : Commit)
    (e : String) (l1 l2 : List Commit)
    (h : compareCommitsE fs c1 c2 = Except.error e) :
    diffRunE fs (c1 :: l1) (c2 :: l2) = Except.error e := by
  have hrow : rowComputeE fs c1 (c2 :: l2) = Except.error e := by
    simp [rowComputeE, h]
  simp [diffRunE, diffGoE, hrow]

/-- C4 counterexample: a strategy list whose second comparator raises on
the (differing-hash) pair; the diff run over one commit on each side
aborts with that error instead of producing a fail result and a report. -/
theorem C4_counterexample :
    diffRunE
        [fun a b => Except.ok (compareHash a b),
          fun _ _ => Except.error "malformed commit"]
        [⟨"a", "s", none⟩] [⟨"b", "t", none⟩] =
      Except.error "malformed commit" := by
  with_unfolding_all rfl

/-- C4 witness: the amended propagation statement applied to a concrete
raising strategy list and a concrete commit pair. -/
theorem C4_witness :
    diffRunE
        [fun a b => Except.ok (compareHash a b),
          fun _ _ => Except.error "boom"]
        [⟨"a", "s", none⟩] [⟨"b", "t", none⟩] =
      Except.error "boom" :=
  C4_amended_error_aborts_run
    [fun a b => Except.ok (compareHash a b), fun _ _ => Except.error "boom"]
    ⟨"a", "s", none⟩ ⟨"b", "t", none⟩ "boom" [] []
    (by with_unfolding_all rfl)

theorem runStrategies_strategies_ne_nil (c1 c2 : Commit) :
    runStrategies strategies c1 c2 ≠ [] := by
  rw [runStrategies_strategies]
  split
  · simp
  · simp

theorem mem_runStrategies (fs : List (Commit → Commit → Result)) (c1 c2 : Commit)
    (r : Result) (h : r ∈ runStrategies fs c1 c2) : ∃ f ∈ fs, r = f c1 c2 := by
  induction fs with
  | nil => simp [runStrategies] at h
  | cons f fs ih =>
    simp only [runStrategies] at h
    split at h
    · rw [List.mem_singleton] at h
      exact ⟨f, List.mem_cons_self _ _, h⟩
    · rcases List.mem_cons.mp h with rfl | h2
      · exact ⟨f, List.mem_cons_self _ _, rfl⟩
      · obtain ⟨g, hg, hr⟩ := ih h2
        exact ⟨g, List.mem_cons_of_mem _ hg, hr⟩

theorem strategies_src (f : Commit → Commit → Result) (hf : f ∈ strategies)
    (c1 c2 : Commit) : (f c1 c2).commitSrc = some c1 := by
  simp only [strategies, List.mem_cons, List.mem_singleton, List.not_mem_nil,
    or_false] at hf
  rcases hf with rfl | rfl | rfl
  · rcases compareHash_cases c1 c2 with ⟨-, heq⟩ | ⟨-, heq⟩ <;> rw [heq] <;> rfl
  · rcases compareChangeId_cases c1 c2 with ⟨-, heq⟩ | ⟨-, heq⟩ <;> rw [heq] <;> rfl
  · rcases compareSubject_cases c1 c2 with heq | ⟨conf, -, -, heq⟩ <;> rw [heq] <;> rfl

theorem compareCommits_src (c1 c2 : Commit) (r : Result)
    (h : compareCommits c1 c2 = some r) : r.commitSrc = some c1 := by
  have hmem := merge_mem _ _ h
  obtain ⟨f, hf, rfl⟩ := mem_runStrategies _ _ _ _ hmem
  exact strategies_src f hf c1 c2

theorem compareCommits_isSome (c1 c2 : Commit) : ∃ r, compareCommits c1 c2 = some r :=
  merge_isSome _ (runStrategies_strategies_ne_nil c1 c2)

theorem rowCompute_spec (c1 : Commit) (l2 : List Commit) :
    ∃ row ch, rowCompute c1 l2 = some (row, ch) ∧
      (row = [] ↔ l2 = []) ∧
      (∀ r ∈ row, ∃ c2 ∈ l2, compareCommits c1 c2 = some r) ∧
      (∀ c, c ∈ ch ↔ c ∈ l2 ∧ ∃ r, compareCommits c1 c = some r ∧ r.positive = true) := by
  induction l2 with
  | nil => exact ⟨[], [], rfl, by simp, by simp, by simp⟩
  | cons c2 rest ih =>
    obtain ⟨row, ch, hrc, hempty, hrow, hch⟩ := ih
    obtain ⟨r, hr⟩ := compareCommits_isSome c1 c2
    refine ⟨r :: row, (if r.positive then [c2] else []) ++ ch, ?_, by simp, ?_, ?_⟩
    · simp [rowCompute, hr, hrc]
    · intro x hx
      rcases List.mem_cons.mp hx with rfl | hx
      · exact ⟨c2, List.mem_cons_self _ _, hr⟩
      · obtain ⟨c, hc, hcc⟩ := hrow x hx
        exact ⟨c, List.mem_cons_of_mem _ hc, hcc⟩
    · intro c
      constructor
      · intro hcm
        rcases List.mem_append.mp hcm with hcm | hcm
        · by_cases hp : r.positive
          · rw [if_pos hp, List.mem_singleton] at hcm
            subst hcm
            exact ⟨List.mem_cons_self _ _, r, hr, hp⟩
          · rw [if_neg hp] at hcm
            cases hcm
        · obtain ⟨hcl, hrr⟩ := (hch c).mp hcm
          exact ⟨List.mem_cons_of_mem _ hcl, hrr⟩
      · rintro ⟨hcl, rr, hrr, hpos⟩
        rcases List.mem_cons.mp hcl with rfl | hcl
        · rw [hr] at hrr
          obtain rfl := Option.some.inj hrr
          apply List.mem_append.mpr
          left
          rw [if_pos hpos]
          exact List.mem_singleton.mpr rfl
        · exact List.mem_append.mpr (Or.inr ((hch c).mpr ⟨hcl, rr, hrr, hpos⟩))

theorem diffGo_spec (commits2 : List Commit) (l1 : List Commit) :
    ∀ acc checked res chk,
      diffGo commits2 l1 acc checked = some (res, chk) →
      (∀ r ∈ res, r ∈ acc ∨ ∃ c1 ∈ l1, ∃ c2 ∈ commits2, compareCommits c1 c2 = some r) ∧
      (∀ c, c ∈ chk ↔ c ∈ checked ∨
        (c ∈ commits2 ∧ ∃ c1 ∈ l1, ∃ r, compareCommits c1 c = some r ∧
          r.positive = true)) := by
  induction l1 with
  | nil =>
    intro acc checked res chk h
    simp only [diffGo, Option.some.injEq, Prod.mk.injEq] at h
    obtain ⟨rfl, rfl⟩ := h
    exact ⟨fun r hr => Or.inl hr, by simp⟩
  | cons c1 rest ih =>
    intro acc checked res chk h
    obtain ⟨row, ch, hrc, hempty, hrow, hch⟩ := rowCompute_spec c1 commits2
    rw [diffGo, hrc] at h
    cases hm : Result.merge row with
    | none =>
      simp only [hm] at h
      cases h
    | some best =>
      simp only [hm] at h
      obtain ⟨hres, hchk⟩ := ih (acc ++ [best]) (checked ++ ch) res chk h
      constructor
      · intro r hr
        rcases hres r hr with hacc | ⟨c1x, hc1x, c2x, hc2x, hcc⟩
        · rcases List.mem_append.mp hacc with hacc | hbest
          · exact Or.inl hacc
          · rw [List.mem_singleton] at hbest
            subst hbest
            obtain ⟨c2x, hc2x, hcc⟩ := hrow r (merge_mem _ _ hm)
            exact Or.inr ⟨c1, List.mem_cons_self _ _, c2x, hc2x, hcc⟩
        · exact Or.inr ⟨c1x, List.mem_cons_of_mem _ hc1x, c2x, hc2x, hcc⟩
      · intro c
        rw [hchk c]
        simp only [List.mem_append, hch c, List.mem_cons]
        constructor
        · rintro ((hk | ⟨hc2, hpos⟩) | ⟨hc2, c1x, hc1x, hpos⟩)
          · exact Or.inl hk
          · exact Or.inr ⟨hc2, c1, Or.inl rfl, hpos⟩
          · exact Or.inr ⟨hc2, c1x, Or.inr hc1x, hpos⟩
        · rintro (hk | ⟨hc2, c1x, rfl | hc1x, hpos⟩)
          · exact Or.inl (Or.inl hk)
          · exact Or.inl (Or.inr ⟨hc2, hpos⟩)
          · exact Or.inr ⟨hc2, c1x, hc1x, hpos⟩

theorem claimed_iff (commits1 : List Commit) (c : Commit) :
    claimed commits1 c = true ↔
      ∃ c1 ∈ commits1, ∃ r, compareCommits c1 c = some r ∧ r.positive = true := by
  simp only [claimed, List.any_eq_true]
  constructor
  · rintro ⟨c1, hc1, hp⟩
    cases hcc : compareCommits c1 c with
    | none =>
      simp only [hcc] at hp
      cases hp
    | some r =>
      simp only [hcc] at hp
      exact ⟨c1, hc1, r, hcc, hp⟩
  · rintro ⟨c1, hc1, r, hr, hp⟩
    refine ⟨c1, hc1, ?_⟩
    simp only [hr]
    exact hp

theorem onlyInB_eq_true_iff (results : List Result) (c : Commit) :
    onlyInB results c = true ↔
      ∃ r ∈ results, r.kind = ResultKind.fail ∧ r.commitSrc = none ∧
        r.commitDest = some c := by
  simp [onlyInB, List.any_eq_true]

/-- C2 amended: after a successful diff run, a rangeB commit is recorded
in the Only-in-B bucket (a fail with absent source) exactly when it was
never the destination of any positive merged pair result.  In particular
a claimed commit is never also recorded as an unclaimed Only-in-B fail.
(The converse direction of the original claim fails: a claimed commit
need not appear in any bucket, see the counterexample.) -/
theorem C2_amended_onlyInB_iff_unclaimed (commits1 commits2 : List Commit)
    (results : List Result) (h : diffRun commits1 commits2 = some results)
    (c : Commit) (hc : c ∈ commits2) :
    onlyInB results c = !(claimed commits1 c) := by
  cases hgo : diffGo commits2 commits1 [] [] with
  | none =>
    simp only [diffRun, hgo] at h
    cases h
  | some p =>
    obtain ⟨res, chk⟩ := p
    simp only [diffRun, hgo, Option.some.injEq] at h
    subst h
    obtain ⟨hres, hchk⟩ := diffGo_spec commits2 commits1 [] [] res chk hgo
    have hchk2 : c ∈ chk ↔ claimed commits1 c = true := by
      rw [claimed_iff, hchk c]
      simp [hc]
    have hnores : ∀ r ∈ res, ¬(r.kind = ResultKind.fail ∧ r.commitSrc = none ∧
        r.commitDest = some c) := by
      intro r hr hP
      rcases hres r hr with hin | ⟨c1x, -, c2x, -, hcc⟩
      · cases hin
      · rw [compareCommits_src _ _ _ hcc] at hP
        exact Option.noConfusion hP.2.1
    have honly : onlyInB (res ++ (commits2.filter fun c' => decide (c' ∉ chk)).map
        (fun c' => Result.mkFail none (some c'))) c = true ↔ (c ∉ chk) := by
      rw [onlyInB_eq_true_iff]
      constructor
      · rintro ⟨r, hrmem, hP⟩
        rcases List.mem_append.mp hrmem with hrmem | hrmem
        · exact absurd hP (hnores r hrmem)
        · obtain ⟨c', hc', rfl⟩ := List.mem_map.mp hrmem
          obtain ⟨-, -, hdest⟩ := hP
          obtain rfl := Option.some.inj hdest
          exact of_decide_eq_true (List.mem_filter.mp hc').2
      · intro hnot
        refine ⟨Result.mkFail none (some c), ?_, rfl, rfl, rfl⟩
        exact List.mem_append.mpr (Or.inr (List.mem_map.mpr
          ⟨c, List.mem_filter.mpr ⟨hc, decide_eq_true hnot⟩, rfl⟩))
    cases hcl : claimed commits1 c with
    | true =>
      have hin : c ∈ chk := hchk2.mpr hcl
      have hfalse : ¬(onlyInB (res ++ (commits2.filter fun c' => decide (c' ∉ chk)).map
          (fun c' => Result.mkFail none (some c'))) c = true) :=
        fun ho => (honly.mp ho) hin
      simp only [Bool.not_true]
      exact Bool.eq_false_iff.mpr hfalse
    | false =>
      simp only [Bool.not_false]
      refine honly.mpr (fun hin => ?_)
      rw [hchk2, hcl] at hin
      cases hin

/-- C2 counterexample: with rangeA = one commit A (hash h1, summary "s")
and rangeB = [X (hash h2, summary "s"), Y (hash h1)], both X and Y get
positive pair results (X by summary, Y by hash), so both are claimed; the
per-A merge keeps only the full match, and the final result list is just
that full match.  X is therefore in none of the three rangeB buckets,
refuting that every rangeB commit lands in at least one bucket. -/
theorem C2_counterexample :
    diffRun [⟨"h1", "s", none⟩] [⟨"h2", "s", none⟩, ⟨"h1", "t", none⟩] =
      some [Result.mkFull CommitCompareHash.WEIGHT ⟨"h1", "s", none⟩] ∧
    (⟨"h2", "s", none⟩ : Commit) ∈ ([⟨"h2", "s", none⟩, ⟨"h1", "t", none⟩] : List Commit) ∧
    claimed [⟨"h1", "s", none⟩] ⟨"h2", "s", none⟩ = true ∧
    inBucketB [Result.mkFull CommitCompareHash.WEIGHT ⟨"h1", "s", none⟩]
      ⟨"h2", "s", none⟩ = false :=
  ⟨by with_unfolding_all decide, by decide,
    by with_unfolding_all decide, by decide⟩

/-- C2 witness: the amended statement applied to the run of the
counterexample: the claimed commit X is (correctly) not recorded as an
Only-in-B fail. -/
theorem C2_witness :
    onlyInB [Result.mkFull CommitCompareHash.WEIGHT ⟨"h1", "s", none⟩]
        ⟨"h2", "s", none⟩ =
      !(claimed [⟨"h1", "s", none⟩] ⟨"h2", "s", none⟩) :=
  C2_amended_onlyInB_iff_unclaimed [⟨"h1", "s", none⟩]
    [⟨"h2", "s", none⟩, ⟨"h1", "t", none⟩]
    [Result.mkFull CommitCompareHash.WEIGHT ⟨"h1", "s", none⟩]
    (by with_unfolding_all decide) ⟨"h2", "s", none⟩ (by decide)
